import Mathlib

/-!
# Verification of the duplicate-audio-detection subsystem of
# `dataset_organizer.py` (voice-dataset-organizer repository)

This file shallowly embeds the algorithmic core of the dataset organizer:

* `audio_content_hash`  — the audio fingerprinter (file `dataset_organizer.py`,
  lines 31–69), with the external librosa primitives (decode, silence trim,
  resample) and SHA-1 abstracted as function parameters, and the concrete
  numeric pipeline (amplitude normalisation, quantisation, int8 cast) embedded
  over `ℚ`;
* `parseLine` / `groupByText` / `find_audio_path` / `procGroup` /
  `run_dedup_analysis` — the grouping engine (lines 645–758), with the
  filesystem walk of the `raw` audio tree abstracted as a function
  `walk : filename → Option directory` and the per-file fingerprint as
  `hashOf : path → Option digest`;
* `execute_dedup_deletion` — the backup-then-mutate executor (lines 875–924)
  over an explicit filesystem state `FS`, emitting an ordered trace of
  filesystem events so that temporal ordering claims can be stated;
* `do_delete` — the commit handler of the review window (lines 854–867).

Machine-level details that cannot affect the claims (GUI layout, logging,
progress reporting, audio playback) are omitted; every control-flow decision
of the embedded functions mirrors the Python source.
-/

/-! ## Path helpers (models of `os.path.basename` / `os.path.dirname`) -/

/-- Characters of the final path component: everything after the last `/`.
Model of `os.path.basename` restricted to `/`-separated paths. -/
def basenameAux : List Char → List Char → List Char
  | [], acc => acc.reverse
  | c :: rest, acc => if c = '/' then basenameAux rest [] else basenameAux rest (c :: acc)

/-- Model of `os.path.basename` for `/`-separated paths. -/
def basename (s : String) : String := ⟨basenameAux s.data []⟩

/-- Model of `os.path.dirname` for `/`-separated paths: everything before the
last `/` (empty when there is no separator). -/
def dirname (s : String) : String :=
  match (s.data.reverse.dropWhile (fun c => c ≠ '/')) with
  | [] => ""
  | _ :: rest => ⟨rest.reverse⟩

/-- Model of Python `str.strip()`: remove leading and trailing whitespace.
(Python also strips a few rarer control characters; manifest lines never
contain them.) -/
def pyStrip (s : String) : String :=
  ⟨((s.data.dropWhile Char.isWhitespace).reverse.dropWhile Char.isWhitespace).reverse⟩

/-! ## Python `str.split(sep, maxsplit)` -/

/-- Split a character list at the first occurrence of `sep`, if any. -/
def splitFirst (sep : Char) : List Char → Option (List Char × List Char)
  | [] => none
  | c :: rest =>
    if c = sep then some ([], rest)
    else (splitFirst sep rest).map (fun p => (c :: p.1, p.2))

/-- Core of Python `str.split(sep, maxsplit)`: at most `fuel` splits are
performed; the remainder (separators included) stays in the last piece. -/
def pySplitCore (sep : Char) : Nat → List Char → List (List Char)
  | 0, cs => [cs]
  | n + 1, cs =>
    match splitFirst sep cs with
    | none => [cs]
    | some (pre, post) => pre :: pySplitCore sep n post

/-- Model of Python `s.split(sep, maxsplit)` for a one-character separator. -/
def pySplit (sep : Char) (maxsplit : Nat) (s : String) : List String :=
  (pySplitCore sep maxsplit s.data).map (fun cs => ⟨cs⟩)

/-! ## Association-list filesystem primitives -/

/-- First value stored under key `p` (Python `dict` lookup / `os.path.exists`
plus read, over an association list). -/
def lookupA {α : Type} (fs : List (String × α)) (p : String) : Option α :=
  match fs with
  | [] => none
  | e :: rest => if e.1 = p then some e.2 else lookupA rest p

/-- Remove every entry with key `p`. -/
def eraseA {α : Type} (fs : List (String × α)) (p : String) : List (String × α) :=
  fs.filter (fun e => decide (e.1 ≠ p))

/-- Store `c` under key `p`, overwriting any previous entry. -/
def setA {α : Type} (fs : List (String × α)) (p : String) (c : α) : List (String × α) :=
  (p, c) :: eraseA fs p

/-! ## The audio fingerprinter

`audio_content_hash` (lines 31–69).  Audio samples are modelled as rationals.
The external librosa primitives are abstracted: `load` is the decode result
for the given path and decode rate (`Except` carries a raised exception),
`trim` is `librosa.effects.trim` at the configured `top_db`, `resample` is
`librosa.resample` from `sr` to `hash_sr`; each may raise.  `sha1` abstracts
`hashlib.sha1(...).hexdigest()` over the quantised byte sequence.  The
concrete numeric steps — the emptiness test, peak-amplitude test,
normalisation, quantisation (`np.round`, which rounds halves to even) and the
`int8` cast — are embedded directly.  The surrounding `try/except` of the
source corresponds to the propagation of the `Except.error` cases into the
`none` result; the Lean function is total, so no exception ever escapes. -/

/-- `np.round`: round half to even, on rationals. -/
def roundHalfEven (q : ℚ) : ℤ :=
  let f := ⌊q⌋
  let r := q - f
  if r < 1 / 2 then f
  else if 1 / 2 < r then f + 1
  else if f % 2 = 0 then f else f + 1

/-- `astype(np.int8)`: wrap an integer into `[-128, 127]`. -/
def toInt8 (z : ℤ) : ℤ := (z + 128) % 256 - 128

/-- `np.max(np.abs(y))` (samples are rationals; the fold base `0` agrees with
the numpy maximum because absolute values are nonnegative). -/
def maxAbsOf (y : List ℚ) : ℚ := y.foldl (fun m v => max m |v|) 0

/-- The quantisation step: `np.round(y * half).astype(np.int8)` with
`half = (q_levels - 1) / 2.0`. -/
def quantize (q_levels : ℕ) (y : List ℚ) : List ℤ :=
  y.map (fun v => toInt8 (roundHalfEven (v * (((q_levels : ℚ) - 1) / 2))))

/-- `audio_content_hash(path, sr, top_db, hash_sr, q_levels)` (lines 31–69),
with the librosa decode/trim/resample primitives for this path and parameter
set abstracted as arguments.  Returns `none` ("unavailable") exactly as the
source does. -/
def audio_content_hash (hasLibrosa : Bool) (load : Except String (List ℚ))
    (trim : List ℚ → Except String (List ℚ))
    (resample : List ℚ → Except String (List ℚ))
    (sha1 : List ℤ → String) (sr hash_sr : ℕ) (q_levels : ℕ) : Option String :=
  if hasLibrosa = false then none
  else
    match load with
    | Except.error _ => none
    | Except.ok y0 =>
      match trim y0 with
      | Except.error _ => none
      | Except.ok y1 =>
        if y1.length = 0 then none
        else
          let maxAbs := maxAbsOf y1
          if maxAbs = 0 then none
          else
            let y2 := y1.map (fun v => v / maxAbs)
            match (if sr ≠ hash_sr then resample y2 else Except.ok y2) with
            | Except.error _ => none
            | Except.ok y3 => some (sha1 (quantize q_levels y3))

/-! ## Manifest records and the grouping engine

`run_dedup_analysis` (lines 645–736 of `dataset_organizer.py`) reads the
manifest, keeps the lines that split into exactly four `|`-separated fields,
groups the resulting records by their transcript text (a Python `defaultdict`
keyed by `text`, preserving first-encounter key order), and inside each group
of size ≥ 2 pairs every record whose fingerprint repeats an earlier one with
the first record that exhibited that fingerprint.

The filesystem walk performed by `find_audio_path` is abstracted by
`walk : String → Option String`, mapping a bare filename to the directory of
its first match under the `raw` tree (`os.walk` order); the fingerprint
`audio_content_hash(path, top_db, hash_sr, q_levels)` with the run's fixed
parameters is abstracted by a pure `hashOf : String → Option String`. -/

/-- One parsed manifest record: the raw line together with its four fields
(`raw_line, filename, actor, lang, text` in the source). -/
structure Rec where
  line : String
  path : String
  actor : String
  lang : String
  text : String
deriving DecidableEq, Repr

/-- The record reader of `run_dedup_analysis`: skip empty lines, split on `|`
with `maxsplit = 3`, and keep only lines yielding exactly four parts. -/
def parseLine (line : String) : Option Rec :=
  if line = "" then none
  else
    match pySplit '|' 3 line with
    | [p, a, l, t] => some ⟨line, p, a, l, t⟩
    | _ => none

/-- Append a record to its text group, creating the group at the end when the
text is new — models insertion into a Python `defaultdict(list)`, whose keys
stay in first-encounter order. -/
def insertGroup : List (String × List Rec) → Rec → List (String × List Rec)
  | [], r => [(r.text, [r])]
  | (t, g) :: rest, r =>
    if t = r.text then (t, g ++ [r]) :: rest else (t, g) :: insertGroup rest r

/-- The `text_groups` mapping of `run_dedup_analysis`. -/
def groupByText (rs : List Rec) : List (String × List Rec) :=
  rs.foldl insertGroup []

/-- `find_audio_path` (lines 748–758): consult the `raw_files_map` cache,
otherwise walk the audio tree; on a hit at directory `d` the path is
`os.path.join(d, filename)` and the cache is extended. -/
def find_audio_path (walk : String → Option String)
    (st : List (String × String)) (filename : String) :
    Option String × List (String × String) :=
  match lookupA st filename with
  | some p => (some p, st)
  | none =>
    match walk filename with
    | some d => (some (d ++ "/" ++ filename), (filename, d ++ "/" ++ filename) :: st)
    | none => (none, st)

/-- The path `find_audio_path` would report for `filename` given cache `st`:
the cached entry if present, else the walk result. Invariant under the cache
growth produced by `find_audio_path` itself. -/
def answer (walk : String → Option String) (st : List (String × String))
    (filename : String) : Option String :=
  match lookupA st filename with
  | some p => some p
  | none => (walk filename).map (fun d => d ++ "/" ++ filename)

/-- One duplicate discovered inside a text group: the stored first record with
this fingerprint and its resolved path (`hash_to_first[h]`), then the later
record and its resolved path. -/
abbrev Dupe := (Rec × String) × Rec × String

/-- The inner loop of `run_dedup_analysis` over one text group (lines
678–711): resolve each record's file, fingerprint it, skip records whose file
is missing or whose fingerprint is unavailable, and pair each repeated
fingerprint with the first record that produced it (`hash_to_first`). -/
def procGroup (walk : String → Option String) (hashOf : String → Option String) :
    List Rec → List (String × Rec × String) → List (String × String) →
    List Dupe × List (String × String)
  | [], _, st => ([], st)
  | r :: rest, h2f, st =>
    match (find_audio_path walk st (basename r.path)).1 with
    | none => procGroup walk hashOf rest h2f (find_audio_path walk st (basename r.path)).2
    | some ap =>
      match hashOf ap with
      | none => procGroup walk hashOf rest h2f (find_audio_path walk st (basename r.path)).2
      | some h =>
        match lookupA h2f h with
        | some op =>
          let res := procGroup walk hashOf rest h2f (find_audio_path walk st (basename r.path)).2
          ((op, r, ap) :: res.1, res.2)
        | none =>
          procGroup walk hashOf rest ((h, r, ap) :: h2f)
            (find_audio_path walk st (basename r.path)).2

/-- One entry of the `duplicate_groups` result list (lines 722–731). -/
structure Cand where
  text : String
  keep_file : String
  keep_path : String
  delete_file : String
  delete_path : String
  delete_line : String
  keep_line : String
  selected : Bool
deriving DecidableEq, Repr

/-- Build the result dictionary appended for one discovered duplicate. -/
def mkCand (t : String) (d : Dupe) : Cand :=
  { text := t
    keep_file := basename d.1.1.path
    keep_path := d.1.2
    delete_file := basename d.2.1.path
    delete_path := d.2.2
    delete_line := d.2.1.line
    keep_line := d.1.1.line
    selected := true }

/-- The outer loop of `run_dedup_analysis` over the text groups: groups of
size < 2 contribute nothing; candidates are emitted in group order and, inside
a group, in discovery order. -/
def runGroups (walk : String → Option String) (hashOf : String → Option String) :
    List (String × List Rec) → List (String × String) →
    List Cand × List (String × String)
  | [], st => ([], st)
  | (t, g) :: rest, st =>
    if g.length < 2 then runGroups walk hashOf rest st
    else
      let res := procGroup walk hashOf g [] st
      let tail := runGroups walk hashOf rest res.2
      (res.1.map (mkCand t) ++ tail.1, tail.2)

/-- `run_dedup_analysis` (lines 645–736): full detection pass from the
manifest lines, threading the `raw_files_map` cache. -/
def run_dedup_analysis (walk : String → Option String)
    (hashOf : String → Option String) (lines : List String)
    (st : List (String × String)) : List Cand × List (String × String) :=
  runGroups walk hashOf (groupByText (lines.filterMap parseLine)) st

/-! ## The backup-then-mutate executor

`execute_dedup_deletion` (lines 875–924).  The filesystem is an explicit
state: text files (path ↦ list of lines, for the manifest and its backup
copy), audio files (path ↦ opaque byte content), and created directories.
The executor also emits the ordered trace of filesystem operations it
performs, so that temporal claims about the backup discipline can be stated.
A `none` result models the `except` branch: the only failure point reachable
in this state model is a missing manifest file (the `shutil.copy2` /
`open(esd_path)` calls). -/

/-- Filesystem state visible to the executor. -/
structure FS where
  textFiles : List (String × List String)
  audioFiles : List (String × String)
  dirs : List String
deriving DecidableEq, Repr

/-- One filesystem operation performed by the executor, in program order. -/
inductive Ev where
  | mkdir (path : String)
  | copyFile (src dst : String)
  | writeText (path : String) (lines : List String)
  | moveAudio (src dst : String)
deriving DecidableEq, Repr

/-- An executor event that mutates the manifest file at `esdPath`: a direct
rewrite, or a copy or move whose destination is the manifest, or a move that
takes the manifest away. -/
def mutatesManifest (esdPath : String) : Ev → Prop
  | Ev.mkdir _ => False
  | Ev.copyFile _ dst => dst = esdPath
  | Ev.writeText p _ => p = esdPath
  | Ev.moveAudio src dst => src = esdPath ∨ dst = esdPath

/-- The manifest rewrite loop (lines 900–905): drop every line whose stripped
text is in `lines_to_remove`, appending the survivors in order. -/
def rewriteLines (toRemove : List String) (lines : List String) : List String :=
  lines.foldl (fun acc l => if toRemove.contains (pyStrip l) then acc else acc ++ [l]) []

/-- The audio relocation loop (lines 912–917): each still-existing delete
target is moved — content preserved, source erased, destination overwritten —
into `deleted_files`, and the moved count and events are accumulated. -/
def moveAll (backupDir : String) :
    List String → List (String × String) → List (String × String) × Nat × List Ev
  | [], fs => (fs, 0, [])
  | p :: rest, fs =>
    match lookupA fs p with
    | some c =>
      let dst := backupDir ++ "/" ++ basename p
      let res := moveAll backupDir rest (setA (eraseA fs p) dst c)
      (res.1, res.2.1 + 1, Ev.moveAudio p dst :: res.2.2)
    | none => moveAll backupDir rest fs

/-- Result of a successful `execute_dedup_deletion` run: final filesystem,
event trace, the reported new manifest line count and moved-file count. -/
structure ExecResult where
  fs : FS
  evs : List Ev
  newCount : Nat
  movedCount : Nat
deriving DecidableEq, Repr

/-- `execute_dedup_deletion` (lines 875–924): create the timestamped backup
directory, copy the manifest into it, create `deleted_files`, rewrite the
manifest without the confirmed delete lines, then move the delete-target
audio files into `deleted_files`.  `ts` is the `datetime.now()` timestamp
string. -/
def execute_dedup_deletion (duplicates : List Cand) (esdPath ts : String)
    (fs : FS) : Option ExecResult :=
  let backupRoot := dirname esdPath ++ "/backup_dedup_" ++ ts
  let backupFilesDir := backupRoot ++ "/deleted_files"
  match lookupA fs.textFiles esdPath with
  | none => none
  | some origLines =>
    let fs1 : FS := { fs with dirs := backupRoot :: fs.dirs }
    let fs2 : FS :=
      { fs1 with textFiles := setA fs1.textFiles (backupRoot ++ "/esd.list") origLines }
    let fs3 : FS := { fs2 with dirs := backupFilesDir :: fs2.dirs }
    let linesToRemove := duplicates.map (fun d => d.delete_line)
    let filesToRemove := (duplicates.map (fun d => d.delete_path)).dedup
    let newLines := rewriteLines linesToRemove origLines
    let fs4 : FS := { fs3 with textFiles := setA fs3.textFiles esdPath newLines }
    let moved := moveAll backupFilesDir filesToRemove fs4.audioFiles
    let fs5 : FS := { fs4 with audioFiles := moved.1 }
    some
      { fs := fs5
        evs := [Ev.mkdir backupRoot,
                Ev.copyFile esdPath (backupRoot ++ "/esd.list"),
                Ev.mkdir backupFilesDir,
                Ev.writeText esdPath newLines] ++ moved.2.2
        newCount := newLines.length
        movedCount := moved.2.1 }

/-- Outcome of the commit handler `do_delete` (lines 854–867). -/
inductive DelKind where
  | noSelectionInfo
  | cancelled
  | ran (r : ExecResult)
  | failed
deriving DecidableEq, Repr

/-- `do_delete` (lines 854–867): filter the confirmed candidates; an empty
selection only shows an informational dialog and returns; otherwise ask for
confirmation and, if granted, run the executor.  `confirm` models the
operator's answer to the `askyesno` dialog. -/
def do_delete (duplicates : List Cand) (confirm : Bool) (esdPath ts : String)
    (fs : FS) : DelKind × FS :=
  let sel := duplicates.filter (fun d => d.selected)
  if sel.length = 0 then (DelKind.noSelectionInfo, fs)
  else if confirm = false then (DelKind.cancelled, fs)
  else
    match execute_dedup_deletion sel esdPath ts fs with
    | some r => (DelKind.ran r, r.fs)
    | none => (DelKind.failed, fs)

/-! ## Specification-side companions of the grouping engine

`pureProc` replays the group loop against a fixed resolution function; the
bridge lemmas below show the stateful loop computes the same duplicates, with
every file resolved to `answer walk st₀` for the initial cache `st₀` (the
cache only ever caches the walk's own answers, so resolution is insensitive
to how far the cache has been filled). -/

/-- `procGroup` replayed against a fixed resolution function
`res : filename → Option path` instead of the threaded cache. -/
def pureProc (res : String → Option String) (hashOf : String → Option String) :
    List Rec → List (String × Rec × String) → List Dupe
  | [], _ => []
  | r :: rest, h2f =>
    match res (basename r.path) with
    | none => pureProc res hashOf rest h2f
    | some ap =>
      match hashOf ap with
      | none => pureProc res hashOf rest h2f
      | some h =>
        match lookupA h2f h with
        | some op => (op, r, ap) :: pureProc res hashOf rest h2f
        | none => pureProc res hashOf rest ((h, r, ap) :: h2f)

/-- `runGroups` replayed against a fixed resolution function. -/
def pureRunGroups (res : String → Option String)
    (hashOf : String → Option String) : List (String × List Rec) → List Cand
  | [] => []
  | (t, g) :: rest =>
    if g.length < 2 then pureRunGroups res hashOf rest
    else (pureProc res hashOf g []).map (mkCand t) ++ pureRunGroups res hashOf rest

/-- The first record of a group (in manifest order) whose file resolves and
fingerprints to `h`, together with its resolved path. -/
def firstWithHash (res : String → Option String)
    (hashOf : String → Option String) (h : String) :
    List Rec → Option (Rec × String)
  | [] => none
  | r :: rest =>
    match res (basename r.path) with
    | none => firstWithHash res hashOf h rest
    | some ap =>
      if hashOf ap = some h then some (r, ap) else firstWithHash res hashOf h rest

/-- The manifest acceptance test of the CSV-organising features
(`load_preview` lines 316–318 and `run_processing` lines 543–547):
a stripped line is processed whenever `line.strip().split('|')` yields at
least two fields.  A string of `n` characters contains at most `n`
separators, so fuel `n` realises Python's unbounded split. -/
def organizerAccepts (line : String) : Bool :=
  decide (2 ≤ (pySplit '|' (pyStrip line).data.length (pyStrip line)).length)

/-! ## Concrete data used to witness the theorems

A two-line manifest whose entries share the transcript `t`, a walk placing
every filename in directory `raw`, and a fingerprint that collides on the
two files — the scenario of the specification's §8. -/

def sampleWalk : String → Option String := fun _ => some "raw"

def sampleHash : String → Option String := fun _ => some "H"

/-- A fingerprint that separates `raw/c.wav` from everything else. -/
def sampleHash2 : String → Option String :=
  fun p => if p = "raw/c.wav" then some "H2" else some "H"

def sampleLines : List String := ["a.wav|s|l|t", "b.wav|s|l|t"]

def sampleCand : Cand :=
  { text := "t"
    keep_file := "a.wav"
    keep_path := "raw/a.wav"
    delete_file := "b.wav"
    delete_path := "raw/b.wav"
    delete_line := "b.wav|s|l|t"
    keep_line := "a.wav|s|l|t"
    selected := true }

def recA : Rec := ⟨"a.wav|s|l|t", "a.wav", "s", "l", "t"⟩

def recB : Rec := ⟨"b.wav|s|l|t", "b.wav", "s", "l", "t"⟩

def recC : Rec := ⟨"c.wav|s|l|t2", "c.wav", "s", "l", "t2"⟩

/-- Filesystem state for executor witnesses: a manifest with the two sample
lines and the two corresponding audio files. -/
def sampleFS : FS :=
  { textFiles := [("root/esd.list", ["a.wav|s|l|t", "b.wav|s|l|t"])]
    audioFiles := [("raw/a.wav", "A"), ("raw/b.wav", "B")]
    dirs := [] }

/-- Filesystem state for the C2 counterexample: the manifest holds two
byte-identical lines. -/
def dupFS : FS :=
  { textFiles := [("root/esd.list", ["a.wav|s|l|t", "a.wav|s|l|t"])]
    audioFiles := [("raw/a.wav", "A")]
    dirs := [] }

/-- Candidate targeting the duplicated manifest line of `dupFS` — exactly
what the detection pass produces on that manifest, since both copies parse
to the same record and resolve to the same file. -/
def dupCand : Cand :=
  { text := "t"
    keep_file := "a.wav"
    keep_path := "raw/a.wav"
    delete_file := "a.wav"
    delete_path := "raw/a.wav"
    delete_line := "a.wav|s|l|t"
    keep_line := "a.wav|s|l|t"
    selected := true }

theorem lookupA_eraseA {α : Type} (fs : List (String × α)) (p q : String) :
    lookupA (eraseA fs p) q = if q = p then none else lookupA fs q := by
  induction fs with
  | nil => simp [eraseA, lookupA]
  | cons e rest ih =>
    by_cases hep : e.1 = p
    · have : eraseA (e :: rest) p = eraseA rest p := by
        simp [eraseA, List.filter_cons, hep]
      rw [this, ih]
      by_cases hqp : q = p
      · simp [hqp]
      · have heq : e.1 ≠ q := by rw [hep]; exact fun h => hqp h.symm
        simp [hqp, lookupA, heq]
    · have : eraseA (e :: rest) p = e :: eraseA rest p := by
        simp [eraseA, List.filter_cons, hep]
      rw [this]
      by_cases heq : e.1 = q
      · have hqp : q ≠ p := by rw [← heq]; exact fun h => hep h
        simp [lookupA, heq, hqp]
      · simp [lookupA, heq, ih]

theorem lookupA_setA {α : Type} (fs : List (String × α)) (p q : String) (c : α) :
    lookupA (setA fs p c) q = if q = p then some c else lookupA fs q := by
  by_cases h : q = p
  · simp [setA, lookupA, h]
  · have hp : p ≠ q := fun hh => h hh.symm
    simp [setA, lookupA, hp, lookupA_eraseA, h]

theorem find_audio_path_fst (walk : String → Option String)
    (st : List (String × String)) (f : String) :
    (find_audio_path walk st f).1 = answer walk st f := by
  unfold find_audio_path answer
  cases lookupA st f with
  | some p => rfl
  | none => cases walk f with
    | some d => rfl
    | none => rfl

theorem answer_find_audio_path (walk : String → Option String)
    (st : List (String × String)) (f g : String) :
    answer walk (find_audio_path walk st f).2 g = answer walk st g := by
  unfold find_audio_path
  cases hl : lookupA st f with
  | some p => rfl
  | none =>
    cases hw : walk f with
    | none => rfl
    | some d =>
      show answer walk ((f, d ++ "/" ++ f) :: st) g = answer walk st g
      unfold answer
      by_cases hgf : g = f
      · subst hgf
        simp [lookupA, hl, hw]
      · have : f ≠ g := fun h => hgf h.symm
        simp [lookupA, this]

theorem procGroup_fst (walk hashOf : String → Option String) :
    ∀ (g : List Rec) (h2f : List (String × Rec × String))
      (st : List (String × String)),
      (procGroup walk hashOf g h2f st).1 = pureProc (answer walk st) hashOf g h2f := by
  intro g
  induction g with
  | nil => intro h2f st; rfl
  | cons r rest ih =>
    intro h2f st
    have hfun : answer walk (find_audio_path walk st (basename r.path)).2 = answer walk st :=
      funext fun f0 => answer_find_audio_path walk st (basename r.path) f0
    have step : ∀ h2f0,
        (procGroup walk hashOf rest h2f0 (find_audio_path walk st (basename r.path)).2).1
          = pureProc (answer walk st) hashOf rest h2f0 := fun h2f0 =>
      (ih h2f0 _).trans (by rw [hfun])
    cases hop : answer walk st (basename r.path) with
    | none =>
      simp only [procGroup, pureProc, find_audio_path_fst, hop]
      exact step h2f
    | some ap =>
      cases hh : hashOf ap with
      | none =>
        simp only [procGroup, pureProc, find_audio_path_fst, hop, hh]
        exact step h2f
      | some h =>
        cases hl : lookupA h2f h with
        | some opair =>
          simp only [procGroup, pureProc, find_audio_path_fst, hop, hh, hl]
          exact congrArg (List.cons (opair, r, ap)) (step h2f)
        | none =>
          simp only [procGroup, pureProc, find_audio_path_fst, hop, hh, hl]
          exact step ((h, r, ap) :: h2f)

theorem answer_procGroup (walk hashOf : String → Option String) :
    ∀ (g : List Rec) (h2f : List (String × Rec × String))
      (st : List (String × String)) (f : String),
      answer walk (procGroup walk hashOf g h2f st).2 f = answer walk st f := by
  intro g
  induction g with
  | nil => intro h2f st f; rfl
  | cons r rest ih =>
    intro h2f st f
    have step : ∀ h2f0,
        answer walk (procGroup walk hashOf rest h2f0
          (find_audio_path walk st (basename r.path)).2).2 f = answer walk st f :=
      fun h2f0 => (ih h2f0 _ f).trans (answer_find_audio_path walk st (basename r.path) f)
    cases hop : (find_audio_path walk st (basename r.path)).1 with
    | none =>
      simp only [procGroup, hop]
      exact step h2f
    | some ap =>
      cases hh : hashOf ap with
      | none =>
        simp only [procGroup, hop, hh]
        exact step h2f
      | some h =>
        cases hl : lookupA h2f h with
        | some opair =>
          simp only [procGroup, hop, hh, hl]
          exact step h2f
        | none =>
          simp only [procGroup, hop, hh, hl]
          exact step ((h, r, ap) :: h2f)

theorem runGroups_fst (walk hashOf : String → Option String) :
    ∀ (gs : List (String × List Rec)) (st : List (String × String)),
      (runGroups walk hashOf gs st).1 = pureRunGroups (answer walk st) hashOf gs := by
  intro gs
  induction gs with
  | nil => intro st; rfl
  | cons tg rest ih =>
    intro st
    cases tg with
    | mk t g =>
      simp only [runGroups, pureRunGroups]
      by_cases hlen : g.length < 2
      · simp only [hlen, if_pos]
        exact ih st
      · simp only [hlen, if_neg, not_false_iff]
        have hfun : answer walk (procGroup walk hashOf g [] st).2 = answer walk st :=
          funext fun f0 => answer_procGroup walk hashOf g [] st f0
        rw [procGroup_fst walk hashOf g [] st, ih ((procGroup walk hashOf g [] st).2), hfun]

theorem answer_runGroups (walk hashOf : String → Option String) :
    ∀ (gs : List (String × List Rec)) (st : List (String × String)) (f : String),
      answer walk (runGroups walk hashOf gs st).2 f = answer walk st f := by
  intro gs
  induction gs with
  | nil => intro st f; rfl
  | cons tg rest ih =>
    intro st f
    cases tg with
    | mk t g =>
      simp only [runGroups]
      by_cases hlen : g.length < 2
      · simp only [hlen, if_pos]
        exact ih st f
      · simp only [hlen, if_neg, not_false_iff]
        exact (ih _ f).trans (answer_procGroup walk hashOf g [] st f)

/-! ## Tie-break characterisation of the group loop -/

theorem firstWithHash_cons_none (res hashOf : String → Option String)
    (h : String) (r : Rec) (rest : List Rec)
    (hop : res (basename r.path) = none) :
    firstWithHash res hashOf h (r :: rest) = firstWithHash res hashOf h rest := by
  simp only [firstWithHash, hop]

theorem firstWithHash_cons_miss (res hashOf : String → Option String)
    (h : String) (r : Rec) (rest : List Rec) (ap : String)
    (hop : res (basename r.path) = some ap) (hh : hashOf ap ≠ some h) :
    firstWithHash res hashOf h (r :: rest) = firstWithHash res hashOf h rest := by
  simp only [firstWithHash, hop, if_neg hh]

theorem firstWithHash_cons_hit (res hashOf : String → Option String)
    (h : String) (r : Rec) (rest : List Rec) (ap : String)
    (hop : res (basename r.path) = some ap) (hh : hashOf ap = some h) :
    firstWithHash res hashOf h (r :: rest) = some (r, ap) := by
  simp only [firstWithHash, hop, if_pos hh]

/-- Every duplicate emitted by `pureProc` carries, as its keep side, either
the entry already stored for its fingerprint in the accumulator, or — when
the fingerprint is new to the accumulator — the first record of the group
that resolves and fingerprints to it. -/
theorem pureProc_keep (res hashOf : String → Option String) :
    ∀ (g : List Rec) (h2f : List (String × Rec × String)) (e : Dupe),
      e ∈ pureProc res hashOf g h2f →
      ∃ h, res (basename e.2.1.path) = some e.2.2 ∧ hashOf e.2.2 = some h ∧
        ((lookupA h2f h = some e.1) ∨
         (lookupA h2f h = none ∧ firstWithHash res hashOf h g = some e.1)) := by
  intro g
  induction g with
  | nil => intro h2f e he; simp [pureProc] at he
  | cons r rest ih =>
    intro h2f e he
    cases hop : res (basename r.path) with
    | none =>
      simp only [pureProc, hop] at he
      obtain ⟨h, h1, h2, h3⟩ := ih h2f e he
      refine ⟨h, h1, h2, ?_⟩
      cases h3 with
      | inl hstored => exact Or.inl hstored
      | inr hfresh =>
        refine Or.inr ⟨hfresh.1, ?_⟩
        rw [firstWithHash_cons_none res hashOf h r rest hop]
        exact hfresh.2
    | some ap =>
      cases hh : hashOf ap with
      | none =>
        simp only [pureProc, hop, hh] at he
        obtain ⟨h, h1, h2, h3⟩ := ih h2f e he
        refine ⟨h, h1, h2, ?_⟩
        cases h3 with
        | inl hstored => exact Or.inl hstored
        | inr hfresh =>
          refine Or.inr ⟨hfresh.1, ?_⟩
          rw [firstWithHash_cons_miss res hashOf h r rest ap hop (by rw [hh]; simp)]
          exact hfresh.2
      | some h0 =>
        cases hl : lookupA h2f h0 with
        | some opair =>
          simp only [pureProc, hop, hh, hl] at he
          cases he with
          | head =>
            refine ⟨h0, hop, hh, Or.inl ?_⟩
            exact hl
          | tail _ htail =>
            obtain ⟨h, h1, h2, h3⟩ := ih h2f e htail
            refine ⟨h, h1, h2, ?_⟩
            cases h3 with
            | inl hstored => exact Or.inl hstored
            | inr hfresh =>
              refine Or.inr ⟨hfresh.1, ?_⟩
              have hne : h ≠ h0 := by
                intro hcontra
                rw [hcontra, hl] at hfresh
                exact Option.noConfusion hfresh.1
              rw [firstWithHash_cons_miss res hashOf h r rest ap hop
                (by rw [hh]; intro hc; exact hne (Option.some.inj hc).symm)]
              exact hfresh.2
        | none =>
          simp only [pureProc, hop, hh, hl] at he
          obtain ⟨h, h1, h2, h3⟩ := ih ((h0, r, ap) :: h2f) e he
          refine ⟨h, h1, h2, ?_⟩
          by_cases hhe : h = h0
          · subst hhe
            cases h3 with
            | inl hstored =>
              have hstored2 : lookupA ((h, r, ap) :: h2f) h = some (r, ap) := by
                simp [lookupA]
              rw [hstored2] at hstored
              have : e.1 = (r, ap) := (Option.some.inj hstored).symm
              refine Or.inr ⟨hl, ?_⟩
              rw [firstWithHash_cons_hit res hashOf h r rest ap hop hh, this]
            | inr hfresh =>
              exfalso
              have : lookupA ((h, r, ap) :: h2f) h = some (r, ap) := by simp [lookupA]
              rw [this] at hfresh
              exact Option.noConfusion hfresh.1
          · have hlift : lookupA ((h0, r, ap) :: h2f) h = lookupA h2f h := by
              simp only [lookupA]
              rw [if_neg (fun hc => hhe hc.symm)]
            cases h3 with
            | inl hstored =>
              rw [hlift] at hstored
              exact Or.inl hstored
            | inr hfresh =>
              rw [hlift] at hfresh
              refine Or.inr ⟨hfresh.1, ?_⟩
              rw [firstWithHash_cons_miss res hashOf h r rest ap hop
                (by rw [hh]; intro hc; exact hhe (Option.some.inj hc).symm)]
              exact hfresh.2

/-! ## Provenance of emitted candidates -/

theorem lookupA_mem {α : Type} :
    ∀ (l : List (String × α)) (k : String) (v : α),
      lookupA l k = some v → (k, v) ∈ l := by
  intro l
  induction l with
  | nil => intro k v h; simp [lookupA] at h
  | cons e rest ih =>
    intro k v h
    by_cases hek : e.1 = k
    · rw [lookupA, if_pos hek] at h
      have hv : e.2 = v := Option.some.inj h
      have : e = (k, v) := by
        obtain ⟨f, s⟩ := e
        rw [show f = k from hek, show s = v from hv]
      rw [← this]
      exact List.mem_cons_self e rest
    · rw [lookupA, if_neg hek] at h
      exact List.mem_cons_of_mem e (ih k v h)

/-- Both sides of every emitted duplicate come from the processed group
(or, for the keep side, from the incoming accumulator). -/
theorem pureProc_mem (res hashOf : String → Option String) :
    ∀ (g : List Rec) (h2f : List (String × Rec × String)) (e : Dupe),
      e ∈ pureProc res hashOf g h2f →
      e.2.1 ∈ g ∧ (e.1.1 ∈ g ∨ ∃ h, (h, e.1) ∈ h2f) := by
  intro g
  induction g with
  | nil => intro h2f e he; simp [pureProc] at he
  | cons r rest ih =>
    intro h2f e he
    cases hop : res (basename r.path) with
    | none =>
      simp only [pureProc, hop] at he
      obtain ⟨hd, hk⟩ := ih h2f e he
      exact ⟨List.mem_cons_of_mem r hd,
        hk.imp (List.mem_cons_of_mem r) id⟩
    | some ap =>
      cases hh : hashOf ap with
      | none =>
        simp only [pureProc, hop, hh] at he
        obtain ⟨hd, hk⟩ := ih h2f e he
        exact ⟨List.mem_cons_of_mem r hd,
          hk.imp (List.mem_cons_of_mem r) id⟩
      | some h0 =>
        cases hl : lookupA h2f h0 with
        | some opair =>
          simp only [pureProc, hop, hh, hl] at he
          cases he with
          | head =>
            refine ⟨List.mem_cons_self r rest, Or.inr ⟨h0, ?_⟩⟩
            exact lookupA_mem h2f h0 opair hl
          | tail _ htail =>
            obtain ⟨hd, hk⟩ := ih h2f e htail
            exact ⟨List.mem_cons_of_mem r hd,
              hk.imp (List.mem_cons_of_mem r) id⟩
        | none =>
          simp only [pureProc, hop, hh, hl] at he
          obtain ⟨hd, hk⟩ := ih ((h0, r, ap) :: h2f) e he
          refine ⟨List.mem_cons_of_mem r hd, ?_⟩
          cases hk with
          | inl hmem => exact Or.inl (List.mem_cons_of_mem r hmem)
          | inr hacc =>
            obtain ⟨h, hmem⟩ := hacc
            rw [List.mem_cons] at hmem
            cases hmem with
            | inl heq =>
              have h2 : e.1 = (r, ap) := congrArg Prod.snd heq
              refine Or.inl ?_
              rw [h2]
              exact List.mem_cons_self r rest
            | inr htl => exact Or.inr ⟨h, htl⟩

theorem mem_insertGroup :
    ∀ (acc : List (String × List Rec)) (r : Rec) (t : String) (g : List Rec),
      (t, g) ∈ insertGroup acc r →
      (∃ g0, (t, g0) ∈ acc ∧ g = g0) ∨
      (∃ g0, (t, g0) ∈ acc ∧ g = g0 ++ [r] ∧ t = r.text) ∨
      (t = r.text ∧ g = [r]) := by
  intro acc
  induction acc with
  | nil =>
    intro r t g h
    simp [insertGroup] at h
    exact Or.inr (Or.inr ⟨h.1, h.2⟩)
  | cons e rest ih =>
    intro r t g h
    cases e with
    | mk t0 g0 =>
      by_cases ht : t0 = r.text
      · rw [insertGroup, if_pos ht] at h
        cases h with
        | head =>
          exact Or.inr (Or.inl ⟨g0, List.mem_cons_self _ _, rfl, ht⟩)
        | tail _ htl =>
          exact Or.inl ⟨g, List.mem_cons_of_mem _ htl, rfl⟩
      · rw [insertGroup, if_neg ht] at h
        cases h with
        | head =>
          exact Or.inl ⟨g, List.mem_cons_self _ _, rfl⟩
        | tail _ htl =>
          rcases ih r t g htl with ⟨g1, hg1, he⟩ | ⟨g1, hg1, he, hte⟩ | ⟨hte, he⟩
          · exact Or.inl ⟨g1, List.mem_cons_of_mem _ hg1, he⟩
          · exact Or.inr (Or.inl ⟨g1, List.mem_cons_of_mem _ hg1, he, hte⟩)
          · exact Or.inr (Or.inr ⟨hte, he⟩)

theorem groupByText_mem_aux :
    ∀ (rs : List Rec) (acc : List (String × List Rec)) (t : String) (g : List Rec),
      (t, g) ∈ rs.foldl insertGroup acc → ∀ x ∈ g,
      (x.text = t ∧ x ∈ rs) ∨ ∃ g0, (t, g0) ∈ acc ∧ x ∈ g0 := by
  intro rs
  induction rs with
  | nil =>
    intro acc t g h x hx
    simp only [List.foldl_nil] at h
    exact Or.inr ⟨g, h, hx⟩
  | cons r rest ih =>
    intro acc t g h x hx
    simp only [List.foldl_cons] at h
    rcases ih (insertGroup acc r) t g h x hx with ⟨hxt, hxr⟩ | ⟨g0, hg0, hxg0⟩
    · exact Or.inl ⟨hxt, List.mem_cons_of_mem r hxr⟩
    · rcases mem_insertGroup acc r t g0 hg0 with ⟨g1, hg1, he⟩ | ⟨g1, hg1, he, hte⟩ | ⟨hte, he⟩
      · exact Or.inr ⟨g1, hg1, he ▸ hxg0⟩
      · rw [he] at hxg0
        rcases List.mem_append.1 hxg0 with hin | hin
        · exact Or.inr ⟨g1, hg1, hin⟩
        · have hx_eq : x = r := by simpa using hin
          exact Or.inl ⟨by rw [hx_eq, hte], by rw [hx_eq]; exact List.mem_cons_self r rest⟩
      · rw [he] at hxg0
        have hx_eq : x = r := by simpa using hxg0
        exact Or.inl ⟨by rw [hx_eq, hte], by rw [hx_eq]; exact List.mem_cons_self r rest⟩

/-- Every member of a text group produced by `groupByText` has the group's
key as its transcript text and comes from the record list. -/
theorem groupByText_mem (rs : List Rec) (t : String) (g : List Rec)
    (h : (t, g) ∈ groupByText rs) : ∀ x ∈ g, x.text = t ∧ x ∈ rs := by
  intro x hx
  rcases groupByText_mem_aux rs [] t g h x hx with hgood | ⟨g0, hg0, _⟩
  · exact hgood
  · simp at hg0

/-- Every candidate emitted by `runGroups` arises from one text group: its
keep and delete sides are records of that group. -/
theorem runGroups_cand (walk hashOf : String → Option String) :
    ∀ (gs : List (String × List Rec)) (st : List (String × String)) (c : Cand),
      c ∈ (runGroups walk hashOf gs st).1 →
      ∃ t g kr kp dr dp, (t, g) ∈ gs ∧ kr ∈ g ∧ dr ∈ g ∧
        c = mkCand t ((kr, kp), dr, dp) := by
  intro gs
  induction gs with
  | nil => intro st c hc; simp [runGroups] at hc
  | cons tg rest ih =>
    intro st c hc
    cases tg with
    | mk t0 g0 =>
      by_cases hlen : g0.length < 2
      · simp only [runGroups, hlen, if_pos] at hc
        obtain ⟨t, g, kr, kp, dr, dp, hg, hkr, hdr, he⟩ := ih st c hc
        exact ⟨t, g, kr, kp, dr, dp, List.mem_cons_of_mem _ hg, hkr, hdr, he⟩
      · simp only [runGroups, hlen, if_neg, not_false_iff] at hc
        rcases List.mem_append.1 hc with hin | hin
        · obtain ⟨d, hd, he⟩ := List.mem_map.1 hin
          rw [procGroup_fst walk hashOf g0 [] st] at hd
          obtain ⟨hdel, hkeep⟩ := pureProc_mem (answer walk st) hashOf g0 [] d hd
          rcases hkeep with hkeep | ⟨h, habs⟩
          · exact ⟨t0, g0, d.1.1, d.1.2, d.2.1, d.2.2, List.mem_cons_self _ _,
              hkeep, hdel, he.symm⟩
          · simp at habs
        · obtain ⟨t, g, kr, kp, dr, dp, hg, hkr, hdr, he⟩ := ih _ c hin
          exact ⟨t, g, kr, kp, dr, dp, List.mem_cons_of_mem _ hg, hkr, hdr, he⟩

/-- A successful parse records the original line and certifies the line is
nonempty and splits into exactly four fields. -/
theorem parseLine_some (l : String) (r : Rec) (h : parseLine l = some r) :
    r.line = l ∧ l ≠ "" ∧ (pySplit '|' 3 l).length = 4 := by
  by_cases hl : l = ""
  · rw [parseLine, if_pos hl] at h
    exact Option.noConfusion h
  · rw [parseLine, if_neg hl] at h
    refine ⟨?_, hl, ?_⟩
    · split at h
      · exact (congrArg Rec.line (Option.some.inj h)).symm
      · exact Option.noConfusion h
    · split at h
      case _ p a l2 t heq => rw [heq]; rfl
      case _ => exact Option.noConfusion h

/-- A record drawn from the manifest reader parses back from its stored raw
line and the raw line occurs among the manifest lines. -/
theorem mem_filterMap_parse (lines : List String) (r : Rec)
    (h : r ∈ lines.filterMap parseLine) :
    parseLine r.line = some r ∧ r.line ∈ lines := by
  obtain ⟨l, hl, hparse⟩ := List.mem_filterMap.1 h
  have := (parseLine_some l r hparse).1
  rw [this]
  exact ⟨hparse, hl⟩

/-- Every candidate of a full detection run pairs two records of the parsed
manifest whose transcript text is the candidate's group text, and stores
their raw lines. -/
theorem run_cand (walk hashOf : String → Option String) (lines : List String)
    (st : List (String × String)) (c : Cand)
    (hc : c ∈ (run_dedup_analysis walk hashOf lines st).1) :
    ∃ kr dr, kr ∈ lines.filterMap parseLine ∧ dr ∈ lines.filterMap parseLine ∧
      kr.text = c.text ∧ dr.text = c.text ∧
      c.keep_line = kr.line ∧ c.delete_line = dr.line := by
  obtain ⟨t, g, kr, kp, dr, dp, hg, hkr, hdr, he⟩ :=
    runGroups_cand walk hashOf _ st c hc
  have hkr2 := groupByText_mem _ t g hg kr hkr
  have hdr2 := groupByText_mem _ t g hg dr hdr
  refine ⟨kr, dr, hkr2.2, hdr2.2, ?_, ?_, ?_, ?_⟩
  · rw [he]; exact hkr2.1
  · rw [he]; exact hdr2.1
  · rw [he]; rfl
  · rw [he]; rfl

/-! ## Executor lemmas -/

theorem foldl_rewrite (toRemove : List String) :
    ∀ (lines acc : List String),
      lines.foldl (fun acc l => if toRemove.contains (pyStrip l) then acc else acc ++ [l]) acc
        = acc ++ lines.filter (fun l => !(toRemove.contains (pyStrip l))) := by
  intro lines
  induction lines with
  | nil => intro acc; simp
  | cons l rest ih =>
    intro acc
    simp only [List.foldl_cons]
    by_cases hc : toRemove.contains (pyStrip l)
    · rw [if_pos hc, ih, List.filter_cons_of_neg]
      simpa using hc
    · rw [if_neg hc, ih, List.filter_cons_of_pos]
      · simp
      · simpa using hc

/-- The manifest rewrite loop is exactly a filter: it keeps, in order and
unaltered, the lines whose stripped text is not in the removal set. -/
theorem rewriteLines_eq_filter (toRemove lines : List String) :
    rewriteLines toRemove lines
      = lines.filter (fun l => !(toRemove.contains (pyStrip l))) := by
  unfold rewriteLines
  rw [foldl_rewrite]
  simp

theorem length_filter_partition {α : Type} (p : α → Bool) (l : List α) :
    (l.filter p).length + (l.filter (fun a => !(p a))).length = l.length := by
  induction l with
  | nil => rfl
  | cons a rest ih =>
    by_cases h : p a
    · simp only [List.filter_cons, h]
      simp only [Bool.not_true, if_true, if_false]
      simp [List.length_cons]
      omega
    · simp only [List.filter_cons, h]
      simp only [Bool.not_false]
      simp [h, List.length_cons]
      omega

theorem string_append_cancel (s a b : String) (h : s ++ a = s ++ b) : a = b := by
  have hd : (s ++ a).data = (s ++ b).data := congrArg String.data h
  rw [String.data_append, String.data_append] at hd
  have hl := List.append_cancel_left hd
  cases a
  cases b
  exact congrArg String.mk hl

/-- A path that is neither a move source nor a move destination is untouched
by the relocation loop. -/
theorem moveAll_preserved (bfd : String) :
    ∀ (ps : List String) (fs : List (String × String)) (x : String),
      x ∉ ps → (∀ r ∈ ps, bfd ++ "/" ++ basename r ≠ x) →
      lookupA (moveAll bfd ps fs).1 x = lookupA fs x := by
  intro ps
  induction ps with
  | nil => intro fs x _ _; rfl
  | cons p rest ih =>
    intro fs x hx hdst
    have hxrest : x ∉ rest := fun hc => hx (List.mem_cons_of_mem p hc)
    have hdstrest : ∀ r ∈ rest, bfd ++ "/" ++ basename r ≠ x :=
      fun r hr => hdst r (List.mem_cons_of_mem p hr)
    cases hl : lookupA fs p with
    | none =>
      simp only [moveAll, hl]
      exact ih fs x hxrest hdstrest
    | some c =>
      simp only [moveAll, hl]
      rw [ih _ x hxrest hdstrest, lookupA_setA, lookupA_eraseA]
      have hxp : x ≠ p := fun hc => hx (hc ▸ List.mem_cons_self p rest)
      have hxd : x ≠ bfd ++ "/" ++ basename p :=
        fun hc => hdst p (List.mem_cons_self p rest) hc.symm
      rw [if_neg hxd, if_neg hxp]

/-- Only listed paths are ever erased by the relocation loop. -/
theorem moveAll_mem_of_removed (bfd : String) :
    ∀ (ps : List String) (fs : List (String × String)) (p : String) (c : String),
      lookupA fs p = some c → lookupA (moveAll bfd ps fs).1 p = none → p ∈ ps := by
  intro ps
  induction ps with
  | nil =>
    intro fs p c hsome hnone
    rw [show (moveAll bfd [] fs).1 = fs from rfl, hsome] at hnone
    exact Option.noConfusion hnone
  | cons q rest ih =>
    intro fs p c hsome hnone
    by_cases hpq : p = q
    · rw [hpq]; exact List.mem_cons_self q rest
    · cases hl : lookupA fs q with
      | none =>
        simp only [moveAll, hl] at hnone
        exact List.mem_cons_of_mem q (ih fs p c hsome hnone)
      | some cq =>
        simp only [moveAll, hl] at hnone
        set fs1 := setA (eraseA fs q) (bfd ++ "/" ++ basename q) cq with hfs1
        have hlook : ∃ c2, lookupA fs1 p = some c2 := by
          rw [hfs1, lookupA_setA, lookupA_eraseA]
          by_cases hpd : p = bfd ++ "/" ++ basename q
          · exact ⟨cq, if_pos hpd⟩
          · rw [if_neg hpd, if_neg hpq]
            exact ⟨c, hsome⟩
        obtain ⟨c2, hc2⟩ := hlook
        exact List.mem_cons_of_mem q (ih fs1 p c2 hc2 hnone)

/-- Under distinct basenames and a fresh destination directory, every listed
path present before the relocation loop ends up, with its content, under the
destination directory. -/
theorem moveAll_backup (bfd : String) :
    ∀ (ps : List String) (fs : List (String × String)) (p : String) (c : String),
      ps.Nodup →
      (∀ a b, a ∈ ps → b ∈ ps → basename a = basename b → a = b) →
      (∀ a ∈ ps, bfd ++ "/" ++ basename a ∉ ps) →
      p ∈ ps → lookupA fs p = some c →
      lookupA (moveAll bfd ps fs).1 (bfd ++ "/" ++ basename p) = some c := by
  intro ps
  induction ps with
  | nil => intro fs p c _ _ _ hp _; simp at hp
  | cons q rest ih =>
    intro fs p c hnd hinj hfresh hp hsome
    have hqrest : q ∉ rest := (List.nodup_cons.1 hnd).1
    have hndrest : rest.Nodup := (List.nodup_cons.1 hnd).2
    rw [List.mem_cons] at hp
    cases hp with
    | inl hpq =>
      subst hpq
      have hnmem : bfd ++ "/" ++ basename p ∉ rest :=
        fun hc => (hfresh p (List.mem_cons_self p rest)) (List.mem_cons_of_mem p hc)
      have hnodst : ∀ r ∈ rest, bfd ++ "/" ++ basename r ≠ bfd ++ "/" ++ basename p := by
        intro r hr hc
        have hbn : basename r = basename p :=
          string_append_cancel (bfd ++ "/") (basename r) (basename p) hc
        have hrp : r = p :=
          hinj r p (List.mem_cons_of_mem p hr) (List.mem_cons_self p rest) hbn
        exact hqrest (hrp ▸ hr)
      simp only [moveAll, hsome]
      rw [moveAll_preserved bfd rest _ _ hnmem hnodst, lookupA_setA, if_pos rfl]
    | inr hprest =>
      cases hl : lookupA fs q with
      | none =>
        simp only [moveAll, hl]
        exact ih fs p c hndrest
          (fun a b ha hb => hinj a b (List.mem_cons_of_mem q ha) (List.mem_cons_of_mem q hb))
          (fun a ha hc => hfresh a (List.mem_cons_of_mem q ha) (List.mem_cons_of_mem q hc))
          hprest hsome
      | some cq =>
        simp only [moveAll, hl]
        have hpq : p ≠ q := fun hc => hqrest (hc ▸ hprest)
        have hpd : p ≠ bfd ++ "/" ++ basename q := by
          intro hc
          exact hfresh q (List.mem_cons_self q rest) (hc ▸ List.mem_cons_of_mem q hprest)
        have hsome1 : lookupA (setA (eraseA fs q) (bfd ++ "/" ++ basename q) cq) p = some c := by
          rw [lookupA_setA, if_neg hpd, lookupA_eraseA, if_neg hpq]
          exact hsome
        exact ih _ p c hndrest
          (fun a b ha hb => hinj a b (List.mem_cons_of_mem q ha) (List.mem_cons_of_mem q hb))
          (fun a ha hc => hfresh a (List.mem_cons_of_mem q ha) (List.mem_cons_of_mem q hc))
          hprest hsome1

/-- Counting form of the tie-break rule: of the records of a group that
resolve and fingerprint to a digest `h`, all but the first — one fewer when
any exists, and the accumulator has no entry for `h` yet — appear as the
delete side of an emitted duplicate. -/
theorem pureProc_count (res hashOf : String → Option String) :
    ∀ (g : List Rec) (h2f : List (String × Rec × String)) (h : String),
      (g.filter (fun r => ((res (basename r.path)).bind hashOf) == some h)).length
        = ((pureProc res hashOf g h2f).filter
            (fun e => ((res (basename e.2.1.path)).bind hashOf) == some h)).length
          + (if lookupA h2f h = none ∧
               (g.any (fun r => ((res (basename r.path)).bind hashOf) == some h)) = true
             then 1 else 0) := by
  intro g
  induction g with
  | nil =>
    intro h2f h
    simp [pureProc]
  | cons r rest ih =>
    intro h2f h
    cases hop : res (basename r.path) with
    | none =>
      simp only [pureProc, hop]
      have heff : ((res (basename r.path)).bind hashOf) = none := by rw [hop]; rfl
      rw [List.filter_cons_of_neg (by simp [heff])]
      rw [ih h2f h]
      congr 2
      simp [List.any_cons, heff]
    | some ap =>
      have heff : ((res (basename r.path)).bind hashOf) = hashOf ap := by rw [hop]; rfl
      cases hh : hashOf ap with
      | none =>
        simp only [pureProc, hop, hh]
        rw [List.filter_cons_of_neg (by simp [heff, hh])]
        rw [ih h2f h]
        congr 2
        simp [List.any_cons, heff, hh]
      | some h0 =>
        by_cases hh0 : h0 = h
        · subst hh0
          cases hl : lookupA h2f h0 with
          | some op =>
            simp only [pureProc, hop, hh, hl]
            rw [List.filter_cons_of_pos (by simp [heff, hh])]
            rw [List.filter_cons_of_pos (by simp [heff, hh])]
            simp only [List.length_cons]
            rw [ih h2f h0]
            simp [hl]
          | none =>
            simp only [pureProc, hop, hh, hl]
            rw [List.filter_cons_of_pos (by simp [heff, hh])]
            simp only [List.length_cons]
            rw [ih ((h0, r, ap) :: h2f) h0]
            have : lookupA ((h0, r, ap) :: h2f) h0 = some (r, ap) := by simp [lookupA]
            simp [this, hl, List.any_cons, heff, hh]
        · have hne : (some h0 == some h) = false := by
            simp [hh0]
          cases hl : lookupA h2f h0 with
          | some op =>
            simp only [pureProc, hop, hh, hl]
            rw [List.filter_cons_of_neg (by simp [heff, hh, hh0])]
            rw [List.filter_cons_of_neg (by simp [heff, hh, hh0])]
            rw [ih h2f h]
            congr 2
            simp [List.any_cons, heff, hh, hh0]
          | none =>
            simp only [pureProc, hop, hh, hl]
            rw [List.filter_cons_of_neg (by simp [heff, hh, hh0])]
            rw [ih ((h0, r, ap) :: h2f) h]
            have : lookupA ((h0, r, ap) :: h2f) h = lookupA h2f h := by
              simp only [lookupA]
              rw [if_neg hh0]
            rw [this]
            congr 2
            simp [List.any_cons, heff, hh, hh0]

/-! ## Concrete evaluation facts shared by the witnesses -/

theorem sample_run :
    (run_dedup_analysis sampleWalk sampleHash sampleLines []).1 = [sampleCand] := rfl

theorem sample_run_skip :
    (run_dedup_analysis sampleWalk sampleHash ("x" :: sampleLines) []).1
      = [sampleCand] := rfl

/-! ## The claims -/

/-- C9: Detection is idempotent and deterministic: with the manifest lines,
the audio-tree walk and the fingerprint function unchanged, running
`run_dedup_analysis` a second time — threading the `raw_files_map` cache the
first run left behind — produces the identical candidate list in the
identical order.  (`hashOf` being a fixed function is the purity of
fingerprinting; the cache insensitivity is proved, for any starting cache.) -/
theorem claim_C9 (walk hashOf : String → Option String) (lines : List String)
    (st : List (String × String)) :
    (run_dedup_analysis walk hashOf lines
        ((run_dedup_analysis walk hashOf lines st).2)).1
      = (run_dedup_analysis walk hashOf lines st).1 := by
  unfold run_dedup_analysis
  rw [runGroups_fst, runGroups_fst]
  have hfun : answer walk
      ((runGroups walk hashOf (groupByText (lines.filterMap parseLine)) st).2)
        = answer walk st :=
    funext fun f => answer_runGroups walk hashOf _ st f
  rw [hfun]

/-- C5: every duplicate candidate produced by the detection pass pairs a keep
entry and a delete entry whose stored raw manifest lines parse back to
records with byte-identical transcript text (string equality: case-sensitive,
no normalisation), equal to the candidate's group text; no candidate pairs
entries of different transcripts. -/
theorem claim_C5 (walk hashOf : String → Option String) (lines : List String)
    (st : List (String × String)) (c : Cand)
    (hc : c ∈ (run_dedup_analysis walk hashOf lines st).1) :
    ∃ kr dr, parseLine c.keep_line = some kr ∧ parseLine c.delete_line = some dr ∧
      kr.text = dr.text ∧ kr.text = c.text := by
  obtain ⟨kr, dr, hkr, hdr, hkt, hdt, hkl, hdl⟩ := run_cand walk hashOf lines st c hc
  refine ⟨kr, dr, ?_, ?_, ?_, hkt⟩
  · rw [hkl]; exact (mem_filterMap_parse lines kr hkr).1
  · rw [hdl]; exact (mem_filterMap_parse lines dr hdr).1
  · rw [hkt, hdt]

/-- Witness for C5 at the two-line sample manifest. -/
theorem claim_C5_witness :
    ∃ kr dr, parseLine sampleCand.keep_line = some kr ∧
      parseLine sampleCand.delete_line = some dr ∧
      kr.text = dr.text ∧ kr.text = sampleCand.text :=
  claim_C5 sampleWalk sampleHash sampleLines [] sampleCand
    (by rw [sample_run]; exact List.mem_singleton.mpr rfl)

/-- C4: (a) in every group scan, each emitted duplicate pairs its delete
record with the record stored for its fingerprint, which is the first record
of the group — in manifest order — whose file resolves and fingerprints to
that digest; (b) in particular for a group `[A, B, C]` where `A` and `B`
share a fingerprint and `C`'s differs, the scan emits exactly the single
candidate keeping `A` and deleting `B`; (c) every subsequent entry with a
repeated fingerprint really is emitted: for each digest, the number of
emitted delete sides is the number of group records carrying that digest
minus one for the kept first.  (The embedding's `hash_to_first` mapping is
only ever queried by key, so no iteration order can influence the
result.) -/
theorem claim_C4 :
    (∀ (walk hashOf : String → Option String) (st : List (String × String))
       (g : List Rec) (e : Dupe), e ∈ (procGroup walk hashOf g [] st).1 →
       ∃ h, answer walk st (basename e.2.1.path) = some e.2.2 ∧
         hashOf e.2.2 = some h ∧
         firstWithHash (answer walk st) hashOf h g = some e.1) ∧
    (∀ (walk hashOf : String → Option String) (st : List (String × String))
       (A B C : Rec) (pa pb pc h h2 : String),
       answer walk st (basename A.path) = some pa → hashOf pa = some h →
       answer walk st (basename B.path) = some pb → hashOf pb = some h →
       answer walk st (basename C.path) = some pc → hashOf pc = some h2 →
       h2 ≠ h →
       (procGroup walk hashOf [A, B, C] [] st).1 = [((A, pa), B, pb)]) ∧
    (∀ (walk hashOf : String → Option String) (st : List (String × String))
       (g : List Rec) (h : String),
       (g.filter (fun r =>
           ((answer walk st (basename r.path)).bind hashOf) == some h)).length
         = ((procGroup walk hashOf g [] st).1.filter (fun e =>
             ((answer walk st (basename e.2.1.path)).bind hashOf) == some h)).length
           + (if (g.any (fun r =>
               ((answer walk st (basename r.path)).bind hashOf) == some h)) = true
              then 1 else 0)) := by
  refine ⟨?_, ?_, ?_⟩
  · intro walk hashOf st g e he
    rw [procGroup_fst] at he
    obtain ⟨h, h1, h2, h3⟩ := pureProc_keep (answer walk st) hashOf g [] e he
    refine ⟨h, h1, h2, ?_⟩
    cases h3 with
    | inl hstored => exact absurd hstored (by simp [lookupA])
    | inr hfresh => exact hfresh.2
  · intro walk hashOf st A B C pa pb pc h h2 hA hhA hB hhB hC hhC hne
    rw [procGroup_fst]
    simp [pureProc, hA, hhA, hB, hhB, hC, hhC, lookupA, Ne.symm hne]
  · intro walk hashOf st g h
    rw [procGroup_fst]
    have hcount := pureProc_count (answer walk st) hashOf g [] h
    simpa [lookupA] using hcount

/-- Witness for C4 at the concrete `[A, B, C]` scenario. -/
theorem claim_C4_witness :
    (procGroup sampleWalk sampleHash2 [recA, recB, recC] [] []).1
      = [((recA, "raw/a.wav"), recB, "raw/b.wav")] :=
  claim_C4.2.1 sampleWalk sampleHash2 [] recA recB recC
    "raw/a.wav" "raw/b.wav" "raw/c.wav" "H" "H2"
    rfl rfl rfl rfl rfl rfl (by decide)

/-- C10 (implicit): the detection pass only considers manifest lines that
split (under Python's `split('|', 3)`) into exactly four fields: a blank line
or a line with fewer than four fields can never be the stored keep or delete
line of any candidate; yet the organiser's CSV-based features accept lines
with only two fields. -/
theorem claim_C10 :
    (∀ (walk hashOf : String → Option String) (lines : List String)
       (st : List (String × String)) (L : String) (c : Cand),
       L ∈ lines → (L = "" ∨ (pySplit '|' 3 L).length ≠ 4) →
       c ∈ (run_dedup_analysis walk hashOf lines st).1 →
       c.keep_line ≠ L ∧ c.delete_line ≠ L) ∧
    (organizerAccepts "a.wav|spk" = true ∧ parseLine "a.wav|spk" = none) := by
  constructor
  · intro walk hashOf lines st L c _ hbad hc
    obtain ⟨kr, dr, hkr, hdr, _, _, hkl, hdl⟩ := run_cand walk hashOf lines st c hc
    constructor
    · intro hEq
      have hp : parseLine L = some kr := by
        rw [← hEq, hkl]
        exact (mem_filterMap_parse lines kr hkr).1
      obtain ⟨_, hne, hlen⟩ := parseLine_some L kr hp
      cases hbad with
      | inl hblank => exact hne hblank
      | inr hfields => exact hfields hlen
    · intro hEq
      have hp : parseLine L = some dr := by
        rw [← hEq, hdl]
        exact (mem_filterMap_parse lines dr hdr).1
      obtain ⟨_, hne, hlen⟩ := parseLine_some L dr hp
      cases hbad with
      | inl hblank => exact hne hblank
      | inr hfields => exact hfields hlen
  · exact ⟨rfl, rfl⟩

/-- Witness for C10: a one-field line in the manifest is never cited by the
emitted candidate. -/
theorem claim_C10_witness :
    sampleCand.keep_line ≠ "x" ∧ sampleCand.delete_line ≠ "x" :=
  claim_C10.1 sampleWalk sampleHash ("x" :: sampleLines) [] "x" sampleCand
    (List.mem_cons_self _ _) (Or.inr (by decide))
    (by rw [sample_run_skip]; exact List.mem_singleton.mpr rfl)

/-- C7: the executor's manifest rewrite produces exactly the subsequence of
the original manifest lines whose stripped text does not exactly match any
confirmed delete line — retained lines unaltered, relative order preserved
(the result is literally a filter of the original list, and a sublist of
it). -/
theorem claim_C7 (dups : List Cand) (esdPath ts : String) (fs : FS)
    (origLines : List String) (res : ExecResult)
    (hL : lookupA fs.textFiles esdPath = some origLines)
    (hE : execute_dedup_deletion dups esdPath ts fs = some res) :
    lookupA res.fs.textFiles esdPath
      = some (origLines.filter
          (fun l => !((dups.map (fun d => d.delete_line)).contains (pyStrip l))))
    ∧ List.Sublist
        (origLines.filter
          (fun l => !((dups.map (fun d => d.delete_line)).contains (pyStrip l))))
        origLines := by
  simp only [execute_dedup_deletion, hL] at hE
  obtain rfl := Option.some.inj hE
  constructor
  · dsimp only
    rw [lookupA_setA, if_pos rfl, rewriteLines_eq_filter]
  · exact List.filter_sublist origLines

/-- Witness for C7 on the sample dataset. -/
theorem claim_C7_witness :
    ∃ res, execute_dedup_deletion [sampleCand] "root/esd.list" "TS" sampleFS
        = some res ∧
      (lookupA res.fs.textFiles "root/esd.list"
          = some ((["a.wav|s|l|t", "b.wav|s|l|t"]).filter
              (fun l => !(([sampleCand].map (fun d => d.delete_line)).contains
                (pyStrip l))))
        ∧ List.Sublist
            ((["a.wav|s|l|t", "b.wav|s|l|t"]).filter
              (fun l => !(([sampleCand].map (fun d => d.delete_line)).contains
                (pyStrip l))))
            ["a.wav|s|l|t", "b.wav|s|l|t"]) :=
  ⟨_, rfl, claim_C7 [sampleCand] "root/esd.list" "TS" sampleFS
    ["a.wav|s|l|t", "b.wav|s|l|t"] _ rfl rfl⟩

/-- C2 as stated is false: when the manifest contains two byte-identical
lines matching one confirmed delete line, both copies are removed, so the
post-execution line count drops by two while only one distinct confirmed
delete line was present verbatim.  The concrete input: manifest
`["a.wav|s|l|t", "a.wav|s|l|t"]` and the single candidate `dupCand`
(which the detection pass itself produces on this manifest). -/
theorem claim_C2_counterexample :
    ¬ (∀ (dups : List Cand) (esdPath ts : String) (fs : FS)
         (origLines : List String),
         lookupA fs.textFiles esdPath = some origLines →
         ∀ (res : ExecResult),
           execute_dedup_deletion dups esdPath ts fs = some res →
           res.newCount = origLines.length
             - ((dups.map (fun d => d.delete_line)).dedup.filter
                 (fun l => origLines.contains l)).length) := by
  intro hclaim
  have h := hclaim [dupCand] "root/esd.list" "TS" dupFS
    ["a.wav|s|l|t", "a.wav|s|l|t"] rfl _ rfl
  exact absurd h (by decide)

/-- C2 amended: the post-execution manifest line count equals the count
before execution minus the number of manifest lines whose stripped text
matches some confirmed delete line (so byte-identical copies of a deleted
line are each counted, all being removed). -/
theorem claim_C2 (dups : List Cand) (esdPath ts : String) (fs : FS)
    (origLines : List String) (res : ExecResult)
    (hL : lookupA fs.textFiles esdPath = some origLines)
    (hE : execute_dedup_deletion dups esdPath ts fs = some res) :
    res.newCount = origLines.length
      - (origLines.filter
          (fun l => (dups.map (fun d => d.delete_line)).contains (pyStrip l))).length := by
  simp only [execute_dedup_deletion, hL] at hE
  obtain rfl := Option.some.inj hE
  show (rewriteLines (dups.map (fun d => d.delete_line)) origLines).length = _
  rw [rewriteLines_eq_filter]
  have hpart := length_filter_partition
    (fun l => (dups.map (fun d => d.delete_line)).contains (pyStrip l)) origLines
  omega

/-- Witness for the amended C2 on the duplicated-line manifest: both copies
match the single delete line, so the count drops from 2 to 0. -/
theorem claim_C2_witness :
    ∃ res, execute_dedup_deletion [dupCand] "root/esd.list" "TS" dupFS
        = some res ∧
      res.newCount = (["a.wav|s|l|t", "a.wav|s|l|t"] : List String).length
        - ((["a.wav|s|l|t", "a.wav|s|l|t"] : List String).filter
            (fun l => ([dupCand].map (fun d => d.delete_line)).contains
              (pyStrip l))).length :=
  ⟨_, rfl, claim_C2 [dupCand] "root/esd.list" "TS" dupFS
    ["a.wav|s|l|t", "a.wav|s|l|t"] _ rfl rfl⟩

/-- C3: on every successful executor run, the manifest is not mutated before
its pre-mutation content has been copied — by a copy event, never a move —
into the fresh timestamped backup directory at
`<dirname esdPath>/backup_dedup_<ts>/esd.list`: the copy event occurs at a
trace position before which no event mutates the manifest, it is
unconditional (the theorem has no assumption on the candidate list), the
backup file still holds the pre-mutation lines at the end of the run, and
the live manifest file still exists afterwards (copy, not move).  The
inequality hypothesis only rules out the degenerate aliasing of the backup
path with the manifest path itself, impossible for real paths since a
basename contains no `/`. -/
theorem claim_C3 (dups : List Cand) (esdPath ts : String) (fs : FS)
    (origLines : List String) (res : ExecResult)
    (hL : lookupA fs.textFiles esdPath = some origLines)
    (hne : dirname esdPath ++ "/backup_dedup_" ++ ts ++ "/esd.list" ≠ esdPath)
    (hE : execute_dedup_deletion dups esdPath ts fs = some res) :
    ∃ k, res.evs.get? k
        = some (Ev.copyFile esdPath
            (dirname esdPath ++ "/backup_dedup_" ++ ts ++ "/esd.list"))
      ∧ (∀ j e, j < k → res.evs.get? j = some e → ¬ mutatesManifest esdPath e)
      ∧ lookupA res.fs.textFiles
          (dirname esdPath ++ "/backup_dedup_" ++ ts ++ "/esd.list")
            = some origLines
      ∧ ∃ nowLines, lookupA res.fs.textFiles esdPath = some nowLines := by
  simp only [execute_dedup_deletion, hL] at hE
  obtain rfl := Option.some.inj hE
  refine ⟨1, rfl, ?_, ?_, ?_⟩
  · intro j e hj hget
    have hj0 : j = 0 := by omega
    subst hj0
    have he : e = Ev.mkdir (dirname esdPath ++ "/backup_dedup_" ++ ts) :=
      (Option.some.inj hget).symm
    subst he
    simp [mutatesManifest]
  · dsimp only
    rw [lookupA_setA, if_neg hne, lookupA_setA, if_pos rfl]
  · refine ⟨rewriteLines (dups.map (fun d => d.delete_line)) origLines, ?_⟩
    dsimp only
    rw [lookupA_setA, if_pos rfl]

/-- Witness for C3 on the sample dataset. -/
theorem claim_C3_witness :
    ∃ res, execute_dedup_deletion [sampleCand] "root/esd.list" "TS" sampleFS
        = some res ∧
      (∃ k, res.evs.get? k
          = some (Ev.copyFile "root/esd.list"
              (dirname "root/esd.list" ++ "/backup_dedup_" ++ "TS" ++ "/esd.list"))
        ∧ (∀ j e, j < k → res.evs.get? j = some e →
            ¬ mutatesManifest "root/esd.list" e)
        ∧ lookupA res.fs.textFiles
            (dirname "root/esd.list" ++ "/backup_dedup_" ++ "TS" ++ "/esd.list")
              = some ["a.wav|s|l|t", "b.wav|s|l|t"]
        ∧ ∃ nowLines, lookupA res.fs.textFiles "root/esd.list" = some nowLines) :=
  ⟨_, rfl, claim_C3 [sampleCand] "root/esd.list" "TS" sampleFS
    ["a.wav|s|l|t", "b.wav|s|l|t"] _ rfl (by decide) rfl⟩

/-- C1: no audio file is ever permanently lost by the executor: every audio
file present before the run and absent afterwards (i.e. physically removed)
is found, with its exact content, under the backup snapshot's
`deleted_files` subfolder, named by its basename — files are moved there,
not deleted.  The two hypotheses record what holds for every confirmed
candidate set produced by the detection pass on a real filesystem: distinct
delete paths carry distinct basenames (the resolver maps a filename to a
path ending in that filename), and the freshly timestamped backup directory
contains none of the delete paths. -/
theorem claim_C1 (dups : List Cand) (esdPath ts : String) (fs : FS)
    (res : ExecResult) (p c : String)
    (hinj : ∀ a b, a ∈ dups.map (fun d => d.delete_path) →
      b ∈ dups.map (fun d => d.delete_path) → basename a = basename b → a = b)
    (hfresh : ∀ a, a ∈ dups.map (fun d => d.delete_path) →
      (dirname esdPath ++ "/backup_dedup_" ++ ts ++ "/deleted_files" ++ "/"
        ++ basename a) ∉ dups.map (fun d => d.delete_path))
    (hE : execute_dedup_deletion dups esdPath ts fs = some res)
    (hbefore : lookupA fs.audioFiles p = some c)
    (hafter : lookupA res.fs.audioFiles p = none) :
    lookupA res.fs.audioFiles
      (dirname esdPath ++ "/backup_dedup_" ++ ts ++ "/deleted_files" ++ "/"
        ++ basename p) = some c := by
  cases hL : lookupA fs.textFiles esdPath with
  | none => simp [execute_dedup_deletion, hL] at hE
  | some origLines =>
    simp only [execute_dedup_deletion, hL] at hE
    obtain rfl := Option.some.inj hE
    dsimp only at hafter ⊢
    have hmem : p ∈ (dups.map (fun d => d.delete_path)).dedup :=
      moveAll_mem_of_removed _ _ fs.audioFiles p c hbefore hafter
    refine moveAll_backup _ _ fs.audioFiles p c (List.nodup_dedup _) ?_ ?_ hmem hbefore
    · intro a b ha hb hbn
      exact hinj a b (List.mem_dedup.1 ha) (List.mem_dedup.1 hb) hbn
    · intro a ha hc
      exact hfresh a (List.mem_dedup.1 ha) (List.mem_dedup.1 hc)

/-- Witness for C1: on the sample dataset, `raw/b.wav` is removed and its
content `"B"` is found under the backup's `deleted_files` folder. -/
theorem claim_C1_witness :
    ∃ res, execute_dedup_deletion [sampleCand] "root/esd.list" "TS" sampleFS
        = some res ∧
      lookupA res.fs.audioFiles
        (dirname "root/esd.list" ++ "/backup_dedup_" ++ "TS" ++ "/deleted_files"
          ++ "/" ++ basename "raw/b.wav") = some "B" :=
  ⟨_, rfl, claim_C1 [sampleCand] "root/esd.list" "TS" sampleFS _ "raw/b.wav" "B"
    (by
      intro a b ha hb _
      have ha2 : a = "raw/b.wav" := by simpa [sampleCand] using ha
      have hb2 : b = "raw/b.wav" := by simpa [sampleCand] using hb
      rw [ha2, hb2])
    (by
      intro a ha hc
      have ha2 : a = "raw/b.wav" := by simpa [sampleCand] using ha
      rw [ha2] at hc
      exact absurd (by simpa [sampleCand] using hc) (by decide))
    rfl rfl rfl⟩

/-- C8: if the confirmed candidate subset is empty when the operator commits,
the commit is a no-op: only the informational dialog is shown (not an
error), the executor is not invoked (the outcome is `noSelectionInfo`, not
`ran`/`failed`), and the filesystem — manifest and audio files alike — is
returned unchanged, whatever the operator would have answered to the
confirmation dialog. -/
theorem claim_C8 (dups : List Cand) (confirm : Bool) (esdPath ts : String)
    (fs : FS) (hsel : dups.filter (fun d => d.selected) = []) :
    do_delete dups confirm esdPath ts fs = (DelKind.noSelectionInfo, fs) := by
  simp [do_delete, hsel]

/-- Witness for C8: a candidate list whose single entry is deselected. -/
theorem claim_C8_witness :
    do_delete [{ sampleCand with selected := false }] true "root/esd.list" "TS"
      sampleFS = (DelKind.noSelectionInfo, sampleFS) :=
  claim_C8 [{ sampleCand with selected := false }] true "root/esd.list" "TS"
    sampleFS (by decide)

/-- C6: with librosa available, the fingerprinter always returns either a
digest or the explicit unavailable result `none` (it is a total function, so
no exception ever escapes to the caller), and it returns `none` exactly when
the decode raises, the silence-trim raises, the trimmed signal is empty, the
peak amplitude is zero, or the resampling step — performed only when the
decode rate differs from the comparison rate — raises. -/
theorem claim_C6 (load : Except String (List ℚ))
    (trim : List ℚ → Except String (List ℚ))
    (resample : List ℚ → Except String (List ℚ))
    (sha1 : List ℤ → String) (sr hash_sr q_levels : ℕ) :
    audio_content_hash true load trim resample sha1 sr hash_sr q_levels = none ↔
      ((∃ e, load = Except.error e) ∨
       (∃ y0, load = Except.ok y0 ∧
         ((∃ e, trim y0 = Except.error e) ∨
          (∃ y1, trim y0 = Except.ok y1 ∧
            (y1.length = 0 ∨ maxAbsOf y1 = 0 ∨
             (sr ≠ hash_sr ∧
              ∃ e, resample (y1.map (fun v => v / maxAbsOf y1))
                = Except.error e)))))) := by
  cases hld : load with
  | error e => simp [audio_content_hash, hld]
  | ok y0 =>
    cases htr : trim y0 with
    | error e => simp [audio_content_hash, hld, htr]
    | ok y1 =>
      by_cases hlen : y1.length = 0
      · have hnil : y1 = [] := List.length_eq_zero.mp hlen
        simp [audio_content_hash, hld, htr, hlen, hnil]
      · have hnil : y1 ≠ [] := fun h => hlen (by rw [h]; rfl)
        by_cases hmax : maxAbsOf y1 = 0
        · simp [audio_content_hash, hld, htr, hlen, hnil, hmax]
        · by_cases hsr : sr ≠ hash_sr
          · cases hrs : resample (y1.map (fun v => v / maxAbsOf y1)) with
            | error e =>
              simp [audio_content_hash, hld, htr, hlen, hnil, hmax, hsr, hrs]
            | ok y3 =>
              simp [audio_content_hash, hld, htr, hlen, hnil, hmax, hsr, hrs]
          · simp [audio_content_hash, hld, htr, hlen, hnil, hmax, hsr]
